import Mathlib

/-!
Verification of the sorted-container binary-search module
(`src/searching/binary_search.rs`).

The Rust code is shallowly embedded:

* `Ascending` / `Descending` marker structs become the two-constructor
  type `Direction`; the `OrdOrder` trait method `O::cmp` becomes `ordCmp`.
* `SortedArray<T, O>` becomes a structure holding a `List α` over a
  `LinearOrder` (`T: Ord`), tagged with a phantom `Direction`.
* `SortedArray::new` sorts with the direction's comparator.  The source
  uses the standard stable sort (`data.sort()` resp.
  `data.sort_by(|a, b| b.cmp(a))`); it is modelled by insertion sort
  under the direction's order, which computes the same list: over a
  total order with propositional equality, any two sorted permutations
  of the same list are equal, so the choice of sorting algorithm is
  immaterial.
* Each `while left < right` loop becomes a function structurally
  recursive on an explicit `fuel` argument bounding the iteration
  count; the wrappers pass `arr.len()` as fuel, which is proved to
  never run out (each iteration strictly shrinks `right - left`, which
  starts at `arr.len()`).  A result of `none` models a panic (an
  out-of-bounds index) or fuel exhaustion; the development proves
  `none` is never returned.
-/

namespace BinarySearch

/-- Marker type for the sort direction: the `Ascending` / `Descending`
marker structs of the source, used as the phantom parameter `O`. -/
inductive Direction : Type where
  | Ascending : Direction
  | Descending : Direction

variable {α : Type*} [LinearOrder α]

/-- `O::cmp(a, b)` of the `OrdOrder` trait: `Ascending` compares
`a.cmp(b)`, `Descending` compares `b.cmp(a)`. -/
def ordCmp (d : Direction) (a b : α) : Ordering :=
  match d with
  | .Ascending => compare a b
  | .Descending => compare b a

/-- The non-strict order under which a container of direction `d` is
sorted: `Ascending` sorts by `≤`, `Descending` by the reversed order. -/
def dirLE (d : Direction) (a b : α) : Prop :=
  match d with
  | .Ascending => a ≤ b
  | .Descending => b ≤ a

/-- Strict version of `dirLE`. -/
def dirLT (d : Direction) (a b : α) : Prop :=
  match d with
  | .Ascending => a < b
  | .Descending => b < a

instance (d : Direction) (a b : α) : Decidable (dirLE d a b) :=
  match d with
  | .Ascending => inferInstanceAs (Decidable (a ≤ b))
  | .Descending => inferInstanceAs (Decidable (b ≤ a))

instance (d : Direction) (a b : α) : Decidable (dirLT d a b) :=
  match d with
  | .Ascending => inferInstanceAs (Decidable (a < b))
  | .Descending => inferInstanceAs (Decidable (b < a))

instance (d : Direction) : IsTotal α (dirLE d) where
  total a b := by
    cases d with
    | Ascending => exact le_total a b
    | Descending => exact le_total b a

instance (d : Direction) : IsTrans α (dirLE d) where
  trans a b c hab hbc := by
    cases d with
    | Ascending => exact le_trans hab hbc
    | Descending => exact le_trans hbc hab

/-- `SortedArray<T, O>`: a vector tagged with a phantom direction. -/
structure SortedArray (α : Type*) (d : Direction) where
  data : List α

/-- `SortedArray::<T, Ascending>::new` / `SortedArray::<T, Descending>::new`:
sort the input vector with the direction's comparator. -/
def SortedArray.new (d : Direction) (v : List α) : SortedArray α d :=
  ⟨v.insertionSort (dirLE d)⟩

/-- `SortedArray::as_slice`: read-only view of the inner data. -/
def SortedArray.as_slice {d : Direction} (arr : SortedArray α d) : List α :=
  arr.data

/-- `SortedArray::len`. -/
def SortedArray.len {d : Direction} (arr : SortedArray α d) : Nat :=
  arr.data.length

/-- `mid = left + (right - left) / 2`, as computed in both loops. -/
def midpoint (left right : Nat) : Nat :=
  left + (right - left) / 2

/-- The `while left < right` loop of `find_boundary`.  On `Equal` the
candidate `boundary` is updated to `mid` and the search continues to the
left (`find_first = true`) or right (`find_first = false`) half. -/
def findBoundaryLoop (d : Direction) (item : α) (arr : List α) (find_first : Bool) :
    Nat → Nat → Nat → Nat → Option Nat
  | 0, left, right, boundary => if left < right then none else some boundary
  | fuel + 1, left, right, boundary =>
    if left < right then
      match arr[midpoint left right]? with
      | none => none
      | some v =>
        match ordCmp d v item, find_first with
        | .eq, true =>
          findBoundaryLoop d item arr find_first fuel left (midpoint left right)
            (midpoint left right)
        | .eq, false =>
          findBoundaryLoop d item arr find_first fuel (midpoint left right + 1) right
            (midpoint left right)
        | .lt, _ =>
          findBoundaryLoop d item arr find_first fuel (midpoint left right + 1) right
            boundary
        | .gt, _ =>
          findBoundaryLoop d item arr find_first fuel left (midpoint left right)
            boundary
    else some boundary

/-- `find_boundary`: full-range binary search for the first
(`find_first = true`) or last (`find_first = false`) occurrence,
starting from `left = 0`, `right = arr.len()`, `boundary = 0`. -/
def find_boundary (d : Direction) (item : α) (arr : SortedArray α d)
    (find_first : Bool) : Option Nat :=
  findBoundaryLoop d item arr.data find_first arr.len 0 arr.len 0

/-- `find_first_and_last`: the two boundaries and the inclusive index
range `(first..=last).collect()`. -/
def find_first_and_last (d : Direction) (item : α) (arr : SortedArray α d) :
    Option (List Nat) :=
  match find_boundary d item arr true with
  | none => none
  | some first =>
    match find_boundary d item arr false with
    | none => none
    | some last => some (List.range' first (last + 1 - first))

/-- The `while left < right` probe loop of `binary_search`: on `Equal`
it breaks with `result = find_first_and_last(item, arr)`; if the loop
exits normally the initial empty `result` is returned. -/
def searchLoop (d : Direction) (item : α) (arr : SortedArray α d) :
    Nat → Nat → Nat → Option (List Nat)
  | 0, left, right => if left < right then none else some []
  | fuel + 1, left, right =>
    if left < right then
      match arr.data[midpoint left right]? with
      | none => none
      | some v =>
        match ordCmp d item v with
        | .lt => searchLoop d item arr fuel left (midpoint left right)
        | .gt => searchLoop d item arr fuel (midpoint left right + 1) right
        | .eq => find_first_and_last d item arr
    else some []

/-- `binary_search(item, arr)`: probe loop over `[0, arr.len())`. -/
def binary_search (d : Direction) (item : α) (arr : SortedArray α d) :
    Option (List Nat) :=
  searchLoop d item arr arr.len 0 arr.len

/-- Brute-force scan helper: indices of elements equal to `q`, with the
head of the list at index `i`. -/
def scanIdxFrom (q : α) : List α → Nat → List Nat
  | [], _ => []
  | x :: xs, i =>
    if x = q then i :: scanIdxFrom q xs (i + 1) else scanIdxFrom q xs (i + 1)

/-- Independent brute-force linear scan: all indices of `l` whose
element equals `q`, in increasing order. -/
def linear_scan (q : α) (l : List α) : List Nat :=
  scanIdxFrom q l 0

/-- The number of elements of `l` strictly below `q` in direction `d`:
the position where the run of copies of `q` starts in a `d`-sorted list. -/
def cntLT (d : Direction) (q : α) (l : List α) : Nat :=
  l.countP fun x => decide (dirLT d x q)

/-! ### Basic facts about the direction-indexed order -/

theorem dirLE_refl (d : Direction) (a : α) : dirLE d a a := by
  cases d with
  | Ascending => exact le_refl a
  | Descending => exact le_refl a

theorem dirLT_irrefl (d : Direction) (a : α) : ¬dirLT d a a := by
  cases d with
  | Ascending => exact lt_irrefl a
  | Descending => exact lt_irrefl a

theorem dirLT_ne (d : Direction) {a b : α} (h : dirLT d a b) : a ≠ b := by
  cases d with
  | Ascending => exact ne_of_lt h
  | Descending => exact (ne_of_lt h).symm

theorem dirLT_of_dirLE_of_dirLT (d : Direction) {a b c : α}
    (h1 : dirLE d a b) (h2 : dirLT d b c) : dirLT d a c := by
  cases d with
  | Ascending => exact lt_of_le_of_lt h1 h2
  | Descending => exact lt_of_lt_of_le h2 h1

theorem dirLT_of_dirLT_of_dirLE (d : Direction) {a b c : α}
    (h1 : dirLT d a b) (h2 : dirLE d b c) : dirLT d a c := by
  cases d with
  | Ascending => exact lt_of_lt_of_le h1 h2
  | Descending => exact lt_of_le_of_lt h2 h1

theorem dirLE_of_dirLT (d : Direction) {a b : α} (h : dirLT d a b) : dirLE d a b := by
  cases d with
  | Ascending => exact le_of_lt h
  | Descending => exact le_of_lt h

theorem dirLT_or_dirLT_of_ne (d : Direction) {a b : α} (h : a ≠ b) :
    dirLT d a b ∨ dirLT d b a := by
  cases d with
  | Ascending => exact lt_or_gt_of_ne h
  | Descending => exact lt_or_gt_of_ne (Ne.symm h)

theorem dirLT_asymm (d : Direction) {a b : α} (h1 : dirLT d a b)
    (h2 : dirLE d b a) : False :=
  dirLT_irrefl d a (dirLT_of_dirLT_of_dirLE d h1 h2)

theorem ordCmp_eq_iff (d : Direction) (a b : α) : ordCmp d a b = .eq ↔ a = b := by
  cases d with
  | Ascending => exact compare_eq_iff_eq
  | Descending =>
    show compare b a = Ordering.eq ↔ a = b
    rw [compare_eq_iff_eq]
    exact eq_comm

theorem ordCmp_lt_iff (d : Direction) (a b : α) : ordCmp d a b = .lt ↔ dirLT d a b := by
  cases d with
  | Ascending => simp [ordCmp, dirLT, compare_lt_iff_lt]
  | Descending => simp [ordCmp, dirLT, compare_lt_iff_lt]

theorem ordCmp_gt_iff (d : Direction) (a b : α) : ordCmp d a b = .gt ↔ dirLT d b a := by
  cases d with
  | Ascending => simp [ordCmp, dirLT, compare_gt_iff_gt]
  | Descending => simp [ordCmp, dirLT, compare_gt_iff_gt]

/-- Sorted lists are monotone in their indices (stated via `getElem?`
so that no bound proofs need to be carried around). -/
theorem sorted_dirLE {d : Direction} {l : List α} (hs : l.Sorted (dirLE d))
    {i j : Nat} {a b : α} (hij : i ≤ j) (ha : l[i]? = some a) (hb : l[j]? = some b) :
    dirLE d a b := by
  rcases List.getElem?_eq_some.mp ha with ⟨hi, rfl⟩
  rcases List.getElem?_eq_some.mp hb with ⟨hj, rfl⟩
  rcases eq_or_lt_of_le hij with h | h
  · subst h
    exact dirLE_refl d _
  · have hrel := hs.rel_get_of_lt (show (⟨i, hi⟩ : Fin l.length) < ⟨j, hj⟩ from h)
    simpa using hrel

theorem midpoint_lt {left right : Nat} (h : left < right) :
    midpoint left right < right := by
  unfold midpoint
  omega

theorem left_le_midpoint (left right : Nat) : left ≤ midpoint left right := by
  unfold midpoint
  omega

/-! ### The linear scan, and its shape on a sorted list -/

theorem scanIdxFrom_cons_self (q : α) (xs : List α) (i : Nat) :
    scanIdxFrom q (q :: xs) i = i :: scanIdxFrom q xs (i + 1) := by
  simp [scanIdxFrom]

theorem scanIdxFrom_cons_of_ne {x q : α} (hx : x ≠ q) (xs : List α) (i : Nat) :
    scanIdxFrom q (x :: xs) i = scanIdxFrom q xs (i + 1) := by
  simp [scanIdxFrom, hx]

theorem mem_scanIdxFrom (q : α) :
    ∀ (l : List α) (i k : Nat), k ∈ scanIdxFrom q l i ↔ i ≤ k ∧ l[k - i]? = some q
  | [], i, k => by simp [scanIdxFrom]
  | x :: xs, i, k => by
    by_cases hx : x = q
    · rw [hx, scanIdxFrom_cons_self, List.mem_cons, mem_scanIdxFrom q xs (i + 1) k]
      constructor
      · rintro (rfl | ⟨hik, hget⟩)
        · simp
        · refine ⟨by omega, ?_⟩
          have he : k - i = (k - (i + 1)) + 1 := by omega
          rw [he, List.getElem?_cons_succ]
          exact hget
      · rintro ⟨hik, hget⟩
        rcases eq_or_lt_of_le hik with rfl | hlt
        · exact Or.inl rfl
        · refine Or.inr ⟨by omega, ?_⟩
          have he : k - i = (k - (i + 1)) + 1 := by omega
          rw [he, List.getElem?_cons_succ] at hget
          exact hget
    · rw [scanIdxFrom_cons_of_ne hx, mem_scanIdxFrom q xs (i + 1) k]
      constructor
      · rintro ⟨hik, hget⟩
        refine ⟨by omega, ?_⟩
        have he : k - i = (k - (i + 1)) + 1 := by omega
        rw [he, List.getElem?_cons_succ]
        exact hget
      · rintro ⟨hik, hget⟩
        rcases eq_or_lt_of_le hik with rfl | hlt
        · rw [Nat.sub_self, List.getElem?_cons_zero] at hget
          exact absurd (Option.some.inj hget) hx
        · refine ⟨by omega, ?_⟩
          have he : k - i = (k - (i + 1)) + 1 := by omega
          rw [he, List.getElem?_cons_succ] at hget
          exact hget

/-- An index is reported by the brute-force scan exactly when the list
holds the query there.  (True for any list, sorted or not.) -/
theorem mem_linear_scan (q : α) (l : List α) (k : Nat) :
    k ∈ linear_scan q l ↔ l[k]? = some q := by
  unfold linear_scan
  rw [mem_scanIdxFrom]
  simp

theorem scanIdxFrom_eq_range' (d : Direction) (q : α) :
    ∀ (l : List α), l.Sorted (dirLE d) → ∀ i : Nat,
      scanIdxFrom q l i = List.range' (i + cntLT d q l) (l.count q)
  | [], _, i => by simp [scanIdxFrom, cntLT]
  | x :: xs, hs, i => by
    rcases List.sorted_cons.mp hs with ⟨hx, hxs⟩
    by_cases hxq : x = q
    · rw [hxq] at hx ⊢
      have hcnt0 : cntLT d q xs = 0 := by
        rw [cntLT, List.countP_eq_zero]
        intro a ha
        simp only [decide_eq_true_eq]
        exact fun hlt => dirLT_asymm d hlt (hx a ha)
      have hcntx : cntLT d q (q :: xs) = 0 := by
        rw [cntLT, List.countP_cons]
        simp only [decide_eq_true_eq, dirLT_irrefl d q, if_false, Nat.add_zero]
        exact hcnt0
      have hrec := scanIdxFrom_eq_range' d q xs hxs (i + 1)
      rw [hcnt0, Nat.add_zero] at hrec
      rw [scanIdxFrom_cons_self, hcntx, Nat.add_zero, List.count_cons_self,
        List.range'_succ, hrec]
      simp
    · rcases dirLT_or_dirLT_of_ne d hxq with hlt | hgt
      · have hcntx : cntLT d q (x :: xs) = cntLT d q xs + 1 := by
          simp [cntLT, List.countP_cons, hlt]
        have hcount : (x :: xs).count q = xs.count q := by
          rw [List.count_cons]
          simp [hxq]
        rw [scanIdxFrom_cons_of_ne hxq, scanIdxFrom_eq_range' d q xs hxs (i + 1),
          hcntx, hcount]
        have he : i + (cntLT d q xs + 1) = (i + 1) + cntLT d q xs := by omega
        rw [he]
      · have hcount : (x :: xs).count q = 0 := by
          rw [List.count_eq_zero]
          intro hmem
          rcases List.mem_cons.mp hmem with heq | hmem'
          · exact dirLT_ne d hgt heq
          · exact dirLT_asymm d hgt (hx q hmem')
        have hcount' : xs.count q = 0 := by
          simpa [List.count_cons, hxq] using hcount
        rw [scanIdxFrom_cons_of_ne hxq, scanIdxFrom_eq_range' d q xs hxs (i + 1),
          hcount, hcount', List.range'_zero, List.range'_zero]

/-- Partition of the length of a list by the three-way comparison
against a fixed query. -/
theorem cnt_partition (d : Direction) (q : α) (l : List α) :
    cntLT d q l + l.count q + (l.countP fun x => decide (dirLT d q x)) = l.length := by
  induction l with
  | nil => simp [cntLT]
  | cons x xs ih =>
    rcases eq_or_ne x q with rfl | hne
    · have h1 : ¬dirLT d x x := dirLT_irrefl d x
      simp only [cntLT, List.countP_cons, List.count_cons, List.length_cons,
        decide_eq_true_eq, h1, if_false, beq_self_eq_true, if_true] at ih ⊢
      omega
    · rcases dirLT_or_dirLT_of_ne d hne with h | h
      · have h2 : ¬dirLT d q x := fun hc => dirLT_asymm d h (dirLE_of_dirLT d hc)
        simp only [cntLT, List.countP_cons, List.count_cons, List.length_cons,
          decide_eq_true_eq, h, h2, if_false, if_true, beq_iff_eq, hne] at ih ⊢
        omega
      · have h2 : ¬dirLT d x q := fun hc => dirLT_asymm d h (dirLE_of_dirLT d hc)
        simp only [cntLT, List.countP_cons, List.count_cons, List.length_cons,
          decide_eq_true_eq, h, h2, if_false, if_true, beq_iff_eq, hne] at ih ⊢
        omega

theorem cntLT_add_count_le (d : Direction) (q : α) (l : List α) :
    cntLT d q l + l.count q ≤ l.length := by
  have := cnt_partition d q l
  omega

/-- On a `d`-sorted list the linear scan is the contiguous range starting
after all strictly-smaller elements and as long as the multiplicity. -/
theorem linear_scan_eq_range' {d : Direction} {l : List α}
    (hs : l.Sorted (dirLE d)) (q : α) :
    linear_scan q l = List.range' (cntLT d q l) (l.count q) := by
  unfold linear_scan
  rw [scanIdxFrom_eq_range' d q l hs 0, Nat.zero_add]

/-- The occurrences of `q` in a `d`-sorted list are exactly the indices
of the interval `[cntLT, cntLT + count)`. -/
theorem getElem?_eq_some_iff_interval {d : Direction} {l : List α}
    (hs : l.Sorted (dirLE d)) (q : α) (k : Nat) :
    l[k]? = some q ↔ cntLT d q l ≤ k ∧ k < cntLT d q l + l.count q := by
  rw [← mem_linear_scan, linear_scan_eq_range' hs, List.mem_range'_1]

/-! ### The boundary loop -/

/-- If the current window holds no occurrence of the item, the boundary
loop never takes an `Equal` branch and returns its `boundary` argument
unchanged. -/
theorem findBoundaryLoop_no_occ (d : Direction) (q : α) (l : List α) (ff : Bool) :
    ∀ (fuel left right b : Nat), right ≤ l.length → right - left ≤ fuel →
      (∀ k, left ≤ k → k < right → l[k]? ≠ some q) →
      findBoundaryLoop d q l ff fuel left right b = some b := by
  intro fuel
  induction fuel with
  | zero =>
    intro left right b hr hf hno
    have hnlt : ¬left < right := by omega
    simp [findBoundaryLoop, hnlt]
  | succ fuel ih =>
    intro left right b hr hf hno
    by_cases hlr : left < right
    · have hmlt := midpoint_lt hlr
      have hmge := left_le_midpoint left right
      rcases hv : l[midpoint left right]? with _ | v
      · rw [List.getElem?_eq_none_iff] at hv
        omega
      · simp only [findBoundaryLoop, if_pos hlr, hv]
        rcases hc : ordCmp d v q with _ | _ | _
        · simp only [hc]
          exact ih (midpoint left right + 1) right b hr (by omega)
            (fun k hk1 hk2 => hno k (by omega) hk2)
        · have hvq : v = q := (ordCmp_eq_iff d v q).mp hc
          rw [hvq] at hv
          exact absurd hv (hno _ hmge hmlt)
        · simp only [hc]
          exact ih left (midpoint left right) b (by omega) (by omega)
            (fun k hk1 hk2 => hno k hk1 (by omega))
    · simp [findBoundaryLoop, hlr]

/-- The boundary loop, given fuel covering the window, never runs out of
fuel and never indexes out of bounds. -/
theorem findBoundaryLoop_isSome (d : Direction) (q : α) (l : List α) (ff : Bool) :
    ∀ (fuel left right b : Nat), right ≤ l.length → right - left ≤ fuel →
      ∃ r, findBoundaryLoop d q l ff fuel left right b = some r := by
  intro fuel
  induction fuel with
  | zero =>
    intro left right b hr hf
    have hnlt : ¬left < right := by omega
    exact ⟨b, by simp [findBoundaryLoop, hnlt]⟩
  | succ fuel ih =>
    intro left right b hr hf
    by_cases hlr : left < right
    · have hmlt := midpoint_lt hlr
      have hmge := left_le_midpoint left right
      rcases hv : l[midpoint left right]? with _ | v
      · rw [List.getElem?_eq_none_iff] at hv
        omega
      · simp only [findBoundaryLoop, if_pos hlr, hv]
        rcases hc : ordCmp d v q with _ | _ | _
        · simp only [hc]
          exact ih (midpoint left right + 1) right b hr (by omega)
        · cases ff
          · simp only [hc]
            exact ih (midpoint left right + 1) right (midpoint left right) hr (by omega)
          · simp only [hc]
            exact ih left (midpoint left right) (midpoint left right) (by omega) (by omega)
        · simp only [hc]
          exact ih left (midpoint left right) b (by omega) (by omega)
    · exact ⟨b, by simp [findBoundaryLoop, hlr]⟩

/-- Correctness of the boundary loop with `find_first = true`: if `F` is
the leftmost occurrence of the item inside the window, the loop returns
`F`. -/
theorem findBoundaryLoop_first (d : Direction) (q : α) {l : List α}
    (hs : l.Sorted (dirLE d)) :
    ∀ (fuel left right b F : Nat), right ≤ l.length → right - left ≤ fuel →
      l[F]? = some q → left ≤ F → F < right →
      (∀ k, left ≤ k → k < F → l[k]? ≠ some q) →
      findBoundaryLoop d q l true fuel left right b = some F := by
  intro fuel
  induction fuel with
  | zero =>
    intro left right b F hr hf hF hFl hFr hFmin
    exfalso
    omega
  | succ fuel ih =>
    intro left right b F hr hf hF hFl hFr hFmin
    have hlr : left < right := by omega
    have hmlt := midpoint_lt hlr
    have hmge := left_le_midpoint left right
    rcases hv : l[midpoint left right]? with _ | v
    · rw [List.getElem?_eq_none_iff] at hv
      omega
    · simp only [findBoundaryLoop, if_pos hlr, hv]
      rcases hc : ordCmp d v q with _ | _ | _
      · simp only [hc]
        have hvq : dirLT d v q := (ordCmp_lt_iff d v q).mp hc
        have hmF : midpoint left right < F := by
          by_contra hcon
          push_neg at hcon
          exact dirLT_asymm d hvq (sorted_dirLE hs hcon hF hv)
        exact ih (midpoint left right + 1) right b F hr (by omega) hF (by omega) hFr
          (fun k hk1 hk2 => hFmin k (by omega) hk2)
      · have hvq : v = q := (ordCmp_eq_iff d v q).mp hc
        subst hvq
        simp only [hc]
        have hFm : F ≤ midpoint left right := by
          by_contra hcon
          push_neg at hcon
          exact hFmin _ hmge hcon hv
        rcases eq_or_lt_of_le hFm with heq | hFmlt
        · rw [heq]
          exact findBoundaryLoop_no_occ d v l true fuel left (midpoint left right)
            (midpoint left right) (by omega) (by omega)
            (fun k hk1 hk2 => hFmin k hk1 (by omega))
        · exact ih left (midpoint left right) (midpoint left right) F (by omega)
            (by omega) hF hFl hFmlt hFmin
      · simp only [hc]
        have hqv : dirLT d q v := (ordCmp_gt_iff d v q).mp hc
        have hFm : F < midpoint left right := by
          by_contra hcon
          push_neg at hcon
          exact dirLT_asymm d hqv (sorted_dirLE hs hcon hv hF)
        exact ih left (midpoint left right) b F (by omega) (by omega) hF hFl hFm hFmin

/-- Correctness of the boundary loop with `find_first = false`: if `G` is
the rightmost occurrence of the item inside the window, the loop returns
`G`. -/
theorem findBoundaryLoop_last (d : Direction) (q : α) {l : List α}
    (hs : l.Sorted (dirLE d)) :
    ∀ (fuel left right b G : Nat), right ≤ l.length → right - left ≤ fuel →
      l[G]? = some q → left ≤ G → G < right →
      (∀ k, G < k → k < right → l[k]? ≠ some q) →
      findBoundaryLoop d q l false fuel left right b = some G := by
  intro fuel
  induction fuel with
  | zero =>
    intro left right b G hr hf hG hGl hGr hGmax
    exfalso
    omega
  | succ fuel ih =>
    intro left right b G hr hf hG hGl hGr hGmax
    have hlr : left < right := by omega
    have hmlt := midpoint_lt hlr
    have hmge := left_le_midpoint left right
    rcases hv : l[midpoint left right]? with _ | v
    · rw [List.getElem?_eq_none_iff] at hv
      omega
    · simp only [findBoundaryLoop, if_pos hlr, hv]
      rcases hc : ordCmp d v q with _ | _ | _
      · simp only [hc]
        have hvq : dirLT d v q := (ordCmp_lt_iff d v q).mp hc
        have hmG : midpoint left right < G := by
          by_contra hcon
          push_neg at hcon
          exact dirLT_asymm d hvq (sorted_dirLE hs hcon hG hv)
        exact ih (midpoint left right + 1) right b G hr (by omega) hG (by omega) hGr
          (fun k hk1 hk2 => hGmax k hk1 hk2)
      · have hvq : v = q := (ordCmp_eq_iff d v q).mp hc
        subst hvq
        simp only [hc]
        have hGm : midpoint left right ≤ G := by
          by_contra hcon
          push_neg at hcon
          exact hGmax _ hcon hmlt hv
        rcases eq_or_lt_of_le hGm with heq | hGmlt
        · rw [← heq]
          exact findBoundaryLoop_no_occ d v l false fuel (midpoint left right + 1)
            right (midpoint left right) hr (by omega)
            (fun k hk1 hk2 => by
              rw [← heq] at hGmax
              exact hGmax k hk1 hk2)
        · exact ih (midpoint left right + 1) right (midpoint left right) G hr
            (by omega) hG (by omega) hGr hGmax
      · simp only [hc]
        have hqv : dirLT d q v := (ordCmp_gt_iff d v q).mp hc
        have hGm : G < midpoint left right := by
          by_contra hcon
          push_neg at hcon
          exact dirLT_asymm d hqv (sorted_dirLE hs hcon hv hG)
        exact ih left (midpoint left right) b G (by omega) (by omega) hG hGl hGm
          (fun k hk1 hk2 => hGmax k hk1 (by omega))

/-! ### The boundary wrappers -/

theorem find_boundary_first_eq {d : Direction} {l : List α}
    (hs : l.Sorted (dirLE d)) {q : α} (hq : 0 < l.count q) :
    find_boundary d q ⟨l⟩ true = some (cntLT d q l) := by
  have hocc : l[cntLT d q l]? = some q :=
    (getElem?_eq_some_iff_interval hs q _).mpr ⟨le_refl _, by omega⟩
  have hlen : cntLT d q l < l.length := by
    have := cntLT_add_count_le d q l
    omega
  exact findBoundaryLoop_first d q hs l.length 0 l.length 0 (cntLT d q l)
    (le_refl _) (by omega) hocc (by omega) hlen
    (fun k hk1 hk2 hocc' => by
      rcases (getElem?_eq_some_iff_interval hs q k).mp hocc' with ⟨h1, h2⟩
      omega)

theorem find_boundary_last_eq {d : Direction} {l : List α}
    (hs : l.Sorted (dirLE d)) {q : α} (hq : 0 < l.count q) :
    find_boundary d q ⟨l⟩ false = some (cntLT d q l + l.count q - 1) := by
  have hocc : l[cntLT d q l + l.count q - 1]? = some q :=
    (getElem?_eq_some_iff_interval hs q _).mpr ⟨by omega, by omega⟩
  have hlen : cntLT d q l + l.count q - 1 < l.length := by
    have := cntLT_add_count_le d q l
    omega
  exact findBoundaryLoop_last d q hs l.length 0 l.length 0
    (cntLT d q l + l.count q - 1) (le_refl _) (by omega) hocc (by omega) hlen
    (fun k hk1 hk2 hocc' => by
      rcases (getElem?_eq_some_iff_interval hs q k).mp hocc' with ⟨h1, h2⟩
      omega)

/-- When the query occurs, `find_first_and_last` returns exactly the
interval of its occurrences. -/
theorem find_first_and_last_eq {d : Direction} {l : List α}
    (hs : l.Sorted (dirLE d)) {q : α} (hq : 0 < l.count q) :
    find_first_and_last d q ⟨l⟩ = some (List.range' (cntLT d q l) (l.count q)) := by
  have h1 := find_boundary_first_eq hs hq
  have h2 := find_boundary_last_eq hs hq
  simp only [find_first_and_last, h1, h2]
  have he : cntLT d q l + l.count q - 1 + 1 - cntLT d q l = l.count q := by omega
  rw [he]

theorem find_first_and_last_isSome (d : Direction) (q : α) (arr : SortedArray α d) :
    ∃ r, find_first_and_last d q arr = some r := by
  rcases findBoundaryLoop_isSome d q arr.data true arr.len 0 arr.len 0 (le_refl _)
    (by omega) with ⟨r1, h1⟩
  rcases findBoundaryLoop_isSome d q arr.data false arr.len 0 arr.len 0 (le_refl _)
    (by omega) with ⟨r2, h2⟩
  refine ⟨List.range' r1 (r2 + 1 - r1), ?_⟩
  simp only [find_first_and_last, find_boundary, h1, h2]

/-! ### The probe loop -/

/-- If the current window holds no occurrence, the probe loop never takes
the `Equal` branch and returns the initial empty result. -/
theorem searchLoop_no_occ (d : Direction) (q : α) (arr : SortedArray α d) :
    ∀ (fuel left right : Nat), right ≤ arr.data.length → right - left ≤ fuel →
      (∀ k, left ≤ k → k < right → arr.data[k]? ≠ some q) →
      searchLoop d q arr fuel left right = some [] := by
  intro fuel
  induction fuel with
  | zero =>
    intro left right hr hf hno
    have hnlt : ¬left < right := by omega
    simp [searchLoop, hnlt]
  | succ fuel ih =>
    intro left right hr hf hno
    by_cases hlr : left < right
    · have hmlt := midpoint_lt hlr
      have hmge := left_le_midpoint left right
      rcases hv : arr.data[midpoint left right]? with _ | v
      · rw [List.getElem?_eq_none_iff] at hv
        omega
      · simp only [searchLoop, if_pos hlr, hv]
        rcases hc : ordCmp d q v with _ | _ | _
        · simp only [hc]
          exact ih left (midpoint left right) (by omega) (by omega)
            (fun k hk1 hk2 => hno k hk1 (by omega))
        · have hvq : q = v := (ordCmp_eq_iff d q v).mp hc
          rw [← hvq] at hv
          exact absurd hv (hno _ hmge hmlt)
        · simp only [hc]
          exact ih (midpoint left right + 1) right hr (by omega)
            (fun k hk1 hk2 => hno k (by omega) hk2)
    · simp [searchLoop, hlr]

/-- If the window holds an occurrence, the probe loop reaches an `Equal`
comparison and breaks with `find_first_and_last`. -/
theorem searchLoop_found (d : Direction) (q : α) (arr : SortedArray α d)
    (hs : arr.data.Sorted (dirLE d)) :
    ∀ (fuel left right : Nat), right ≤ arr.data.length → right - left ≤ fuel →
      (∃ k, left ≤ k ∧ k < right ∧ arr.data[k]? = some q) →
      searchLoop d q arr fuel left right = find_first_and_last d q arr := by
  intro fuel
  induction fuel with
  | zero =>
    intro left right hr hf hex
    exfalso
    rcases hex with ⟨k, h1, h2, _⟩
    omega
  | succ fuel ih =>
    intro left right hr hf hex
    rcases hex with ⟨k, hk1, hk2, hkocc⟩
    have hlr : left < right := by omega
    have hmlt := midpoint_lt hlr
    have hmge := left_le_midpoint left right
    rcases hv : arr.data[midpoint left right]? with _ | v
    · rw [List.getElem?_eq_none_iff] at hv
      omega
    · simp only [searchLoop, if_pos hlr, hv]
      rcases hc : ordCmp d q v with _ | _ | _
      · simp only [hc]
        have hqv : dirLT d q v := (ordCmp_lt_iff d q v).mp hc
        have hkm : k < midpoint left right := by
          by_contra hcon
          push_neg at hcon
          exact dirLT_asymm d hqv (sorted_dirLE hs hcon hv hkocc)
        exact ih left (midpoint left right) (by omega) (by omega) ⟨k, hk1, hkm, hkocc⟩
      · rfl
      · simp only [hc]
        have hvq : dirLT d v q := (ordCmp_gt_iff d q v).mp hc
        have hkm : midpoint left right < k := by
          by_contra hcon
          push_neg at hcon
          exact dirLT_asymm d hvq (sorted_dirLE hs hcon hkocc hv)
        exact ih (midpoint left right + 1) right hr (by omega) ⟨k, by omega, hk2, hkocc⟩

/-- The probe loop, given fuel covering the window, never runs out of
fuel and never indexes out of bounds (no sortedness needed). -/
theorem searchLoop_isSome (d : Direction) (q : α) (arr : SortedArray α d) :
    ∀ (fuel left right : Nat), right ≤ arr.data.length → right - left ≤ fuel →
      ∃ r, searchLoop d q arr fuel left right = some r := by
  intro fuel
  induction fuel with
  | zero =>
    intro left right hr hf
    have hnlt : ¬left < right := by omega
    exact ⟨[], by simp [searchLoop, hnlt]⟩
  | succ fuel ih =>
    intro left right hr hf
    by_cases hlr : left < right
    · have hmlt := midpoint_lt hlr
      have hmge := left_le_midpoint left right
      rcases hv : arr.data[midpoint left right]? with _ | v
      · rw [List.getElem?_eq_none_iff] at hv
        omega
      · rcases hc : ordCmp d q v with _ | _ | _
        · rcases ih left (midpoint left right) (by omega) (by omega) with ⟨r, hr'⟩
          exact ⟨r, by simp only [searchLoop, if_pos hlr, hv, hc]; exact hr'⟩
        · rcases find_first_and_last_isSome d q arr with ⟨r, hr'⟩
          exact ⟨r, by simp only [searchLoop, if_pos hlr, hv, hc]; exact hr'⟩
        · rcases ih (midpoint left right + 1) right hr (by omega) with ⟨r, hr'⟩
          exact ⟨r, by simp only [searchLoop, if_pos hlr, hv, hc]; exact hr'⟩
    · exact ⟨[], by simp [searchLoop, hlr]⟩

/-! ### Full characterisation of `binary_search` on a sorted payload -/

/-- On a `d`-sorted payload, `binary_search` returns exactly the
contiguous interval of indices holding the query (empty when absent). -/
theorem binary_search_eq_range' {d : Direction} {l : List α}
    (hs : l.Sorted (dirLE d)) (q : α) :
    binary_search d q ⟨l⟩ = some (List.range' (cntLT d q l) (l.count q)) := by
  rcases Nat.eq_zero_or_pos (l.count q) with hz | hpos
  · rw [hz, List.range'_zero]
    have hno : ∀ k, 0 ≤ k → k < l.length → l[k]? ≠ some q := by
      intro k _ hk hocc
      rcases (getElem?_eq_some_iff_interval hs q k).mp hocc with ⟨h1, h2⟩
      omega
    exact searchLoop_no_occ d q ⟨l⟩ l.length 0 l.length (le_refl _) (by omega) hno
  · have hocc : l[cntLT d q l]? = some q :=
      (getElem?_eq_some_iff_interval hs q _).mpr ⟨le_refl _, by omega⟩
    have hlen : cntLT d q l < l.length := by
      have := cntLT_add_count_le d q l
      omega
    have h1 := searchLoop_found d q ⟨l⟩ hs l.length 0 l.length (le_refl _)
      (by omega) ⟨cntLT d q l, by omega, hlen, hocc⟩
    exact h1.trans (find_first_and_last_eq hs hpos)

/-! ### Construction facts and a mirroring helper -/

theorem new_data_sorted (d : Direction) (v : List α) :
    ((SortedArray.new d v).data).Sorted (dirLE d) :=
  List.sorted_insertionSort (dirLE d) v

theorem new_data_perm (d : Direction) (v : List α) :
    ((SortedArray.new d v).data).Perm v :=
  List.perm_insertionSort (dirLE d) v

theorem range'_map_sub_reverse (n : Nat) :
    ∀ (c s : Nat), s + c ≤ n →
      ((List.range' s c).map fun i => n - 1 - i).reverse = List.range' (n - s - c) c
  | 0, s, _ => by simp
  | c + 1, s, h => by
    rw [List.range'_succ, List.map_cons, List.reverse_cons,
      range'_map_sub_reverse n c (s + 1) (by omega), List.range'_concat]
    have e1 : n - (s + 1) - c = n - s - (c + 1) := by omega
    have e2 : n - s - (c + 1) + 1 * c = n - 1 - s := by omega
    rw [e1, e2]

/-! ### The claims -/

/-- C1: for every finite input sequence `S`, direction `d` and query `q`,
`binary_search(q, SortedArray::new(S))` succeeds and returns exactly the
set of indices of the `d`-sorted array at which the element equals `q`,
and this equals the independent brute-force linear scan of the sorted
array. -/
theorem search_eq_linear_scan (d : Direction) (q : α) (S : List α) :
    ∃ r, binary_search d q (SortedArray.new d S) = some r ∧
      (∀ i : Nat, i ∈ r ↔ ((SortedArray.new d S).as_slice)[i]? = some q) ∧
      r = linear_scan q (SortedArray.new d S).as_slice := by
  have hs := new_data_sorted d S
  refine ⟨_, binary_search_eq_range' hs q, ?_, ?_⟩
  · intro i
    rw [List.mem_range'_1]
    exact (getElem?_eq_some_iff_interval hs q i).symm
  · exact (linear_scan_eq_range' hs q).symm

/-- C2: for any sequence `S` and query `q`, the ascending and descending
searches both succeed with results of equal cardinality, and the
descending result is the ascending one mirrored through
`i ↦ n - 1 - i` (read back in increasing order). -/
theorem direction_symmetry (S : List α) (q : α) :
    ∃ ra rd,
      binary_search Direction.Ascending q
          (SortedArray.new Direction.Ascending S) = some ra ∧
        binary_search Direction.Descending q
          (SortedArray.new Direction.Descending S) = some rd ∧
        ra.length = rd.length ∧
        rd = (ra.map fun i => S.length - 1 - i).reverse := by
  have hsA := new_data_sorted Direction.Ascending S
  have hsD := new_data_sorted Direction.Descending S
  refine ⟨_, _, binary_search_eq_range' hsA q, binary_search_eq_range' hsD q, ?_, ?_⟩
  · rw [List.length_range', List.length_range',
      (new_data_perm Direction.Ascending S).count_eq q,
      (new_data_perm Direction.Descending S).count_eq q]
  · have hcA : ((SortedArray.new Direction.Ascending S).data).count q = S.count q :=
      (new_data_perm Direction.Ascending S).count_eq q
    have hcD : ((SortedArray.new Direction.Descending S).data).count q = S.count q :=
      (new_data_perm Direction.Descending S).count_eq q
    have hA : cntLT Direction.Ascending q ((SortedArray.new Direction.Ascending S).data)
        = S.countP fun x => decide (dirLT Direction.Ascending x q) :=
      (new_data_perm Direction.Ascending S).countP_eq _
    have hD : cntLT Direction.Descending q
          ((SortedArray.new Direction.Descending S).data)
        = S.countP fun x => decide (dirLT Direction.Descending x q) :=
      (new_data_perm Direction.Descending S).countP_eq _
    have hswap : (S.countP fun x => decide (dirLT Direction.Descending x q))
        = S.countP fun x => decide (dirLT Direction.Ascending q x) :=
      List.countP_congr fun a _ => Iff.rfl
    have hpart := cnt_partition Direction.Ascending q S
    rw [cntLT] at hpart
    rw [hcA, hcD, hA, hD, hswap]
    have hle : (S.countP fun x => decide (dirLT Direction.Ascending x q)) + S.count q
        ≤ S.length := by omega
    rw [range'_map_sub_reverse S.length (S.count q)
      (S.countP fun x => decide (dirLT Direction.Ascending x q)) hle]
    have he : S.length - (S.countP fun x => decide (dirLT Direction.Ascending x q))
        - S.count q = S.countP fun x => decide (dirLT Direction.Ascending q x) := by
      omega
    rw [he]

/-- C3: after construction the exposed sequence is sorted consistently
with the direction's comparison (non-decreasing under the natural order
for `Ascending`, non-increasing for `Descending`); the embedding is
purely functional, so no operation can mutate a constructed container. -/
theorem new_as_slice_sorted (v : List α) :
    ((SortedArray.new Direction.Ascending v).as_slice).Sorted (· ≤ ·) ∧
    ((SortedArray.new Direction.Descending v).as_slice).Sorted
      (fun a b : α => b ≤ a) := by
  exact ⟨new_data_sorted Direction.Ascending v, new_data_sorted Direction.Descending v⟩

/-- C4: on every iteration of either loop the two possible successor
windows (`right = mid` or `left = mid + 1`) strictly shrink
`right - left`, and consequently `binary_search` is total and never
fails: for every query and container (whatever its payload) it returns
a result — the loops never exhaust the `right - left` fuel bound and no
operation fails. -/
theorem binary_search_total (d : Direction) (q : α) (arr : SortedArray α d) :
    (∀ left right : Nat, left < right →
      midpoint left right - left < right - left ∧
      right - (midpoint left right + 1) < right - left) ∧
    ∃ r, binary_search d q arr = some r := by
  constructor
  · intro left right h
    have h1 := midpoint_lt h
    have h2 := left_le_midpoint left right
    omega
  · exact searchLoop_isSome d q arr arr.len 0 arr.len (le_refl _) (by omega)

/-- C5: the index sequence returned by `binary_search` is strictly
increasing and every index in it is a valid position (below `len`). -/
theorem result_indices_valid (d : Direction) (q : α) (S : List α) :
    ∃ r, binary_search d q (SortedArray.new d S) = some r ∧
      r.Pairwise (· < ·) ∧ ∀ i ∈ r, i < (SortedArray.new d S).len := by
  have hs := new_data_sorted d S
  refine ⟨_, binary_search_eq_range' hs q, List.pairwise_lt_range' _ _, ?_⟩
  intro i hi
  rw [List.mem_range'_1] at hi
  have hcc := cntLT_add_count_le d q ((SortedArray.new d S).data)
  show i < ((SortedArray.new d S).data).length
  omega

/-- C6: on the ascending container built from `[1,2,3,2,2,3,3,4,4,5]`
(sorted: `[1,2,2,2,3,3,3,4,4,5]`), searching `2` yields `[1,2,3]`,
`3` yields `[4,5,6]`, `5` yields `[9]` and `6` yields `[]`. -/
theorem duplicates_example :
    (SortedArray.new Direction.Ascending
        ([1, 2, 3, 2, 2, 3, 3, 4, 4, 5] : List Int)).as_slice
      = [1, 2, 2, 2, 3, 3, 3, 4, 4, 5] ∧
    binary_search Direction.Ascending (2 : Int)
      (SortedArray.new Direction.Ascending [1, 2, 3, 2, 2, 3, 3, 4, 4, 5])
      = some [1, 2, 3] ∧
    binary_search Direction.Ascending (3 : Int)
      (SortedArray.new Direction.Ascending [1, 2, 3, 2, 2, 3, 3, 4, 4, 5])
      = some [4, 5, 6] ∧
    binary_search Direction.Ascending (5 : Int)
      (SortedArray.new Direction.Ascending [1, 2, 3, 2, 2, 3, 3, 4, 4, 5])
      = some [9] ∧
    binary_search Direction.Ascending (6 : Int)
      (SortedArray.new Direction.Ascending [1, 2, 3, 2, 2, 3, 3, 4, 4, 5])
      = some [] :=
  ⟨rfl, rfl, rfl, rfl, rfl⟩

/-- C7: searching any query in a container built from the empty sequence
returns the empty result, for either direction. -/
theorem empty_container (d : Direction) (q : α) :
    binary_search d q (SortedArray.new d []) = some [] := by
  cases d <;> rfl

/-- C8: `binary_search` is deterministic and leaves the container
untouched (the embedding is purely functional): two calls with equal
query and equal container produce identical results. -/
theorem search_deterministic (d : Direction) (q q' : α) (a a' : SortedArray α d)
    (hq : q = q') (ha : a = a') :
    binary_search d q a = binary_search d q' a' := by
  rw [hq, ha]

theorem search_deterministic_witness :
    binary_search Direction.Ascending (2 : Int)
        (SortedArray.new Direction.Ascending [2, 1])
      = binary_search Direction.Ascending (2 : Int)
        (SortedArray.new Direction.Ascending [2, 1]) :=
  search_deterministic Direction.Ascending 2 2 _ _ rfl rfl

/-- C9: with any window `left ≤ right ≤ len` (and fuel covering it, as
the wrappers always supply), neither loop nor `find_first_and_last` ever
returns `none`: every index `mid` that is read is in bounds and no
panic can occur, on any container including the empty one. -/
theorem no_panic (d : Direction) (q : α) (l : List α) (ff : Bool)
    (fuel left right b : Nat) (hr : right ≤ l.length) (hf : right - left ≤ fuel) :
    findBoundaryLoop d q l ff fuel left right b ≠ none ∧
    searchLoop d q (SortedArray.mk l : SortedArray α d) fuel left right ≠ none ∧
    find_first_and_last d q (SortedArray.mk l : SortedArray α d) ≠ none := by
  refine ⟨?_, ?_, ?_⟩
  · rcases findBoundaryLoop_isSome d q l ff fuel left right b hr hf with ⟨r, h⟩
    simp [h]
  · rcases searchLoop_isSome d q (SortedArray.mk l : SortedArray α d)
      fuel left right hr hf with ⟨r, h⟩
    simp [h]
  · rcases find_first_and_last_isSome d q (SortedArray.mk l : SortedArray α d)
      with ⟨r, h⟩
    simp [h]

theorem no_panic_witness :
    findBoundaryLoop Direction.Ascending (2 : Int) [1, 2, 2, 3] true 4 0 4 0 ≠ none ∧
    searchLoop Direction.Ascending (2 : Int)
        (SortedArray.mk [1, 2, 2, 3] : SortedArray Int Direction.Ascending) 4 0 4
      ≠ none ∧
    find_first_and_last Direction.Ascending (2 : Int)
        (SortedArray.mk [1, 2, 2, 3] : SortedArray Int Direction.Ascending)
      ≠ none :=
  no_panic Direction.Ascending 2 [1, 2, 2, 3] true 4 0 4 0 (by decide) (by decide)

/-- C10: the container built by `SortedArray::new(v)` holds a permutation
of `v`, and its `len` equals the length of `v`. -/
theorem new_perm_len (d : Direction) (v : List α) :
    ((SortedArray.new d v).as_slice).Perm v ∧ (SortedArray.new d v).len = v.length :=
  ⟨new_data_perm d v, (new_data_perm d v).length_eq⟩

end BinarySearch
